import Mathlib

/-!
# Non-maximum suppression pass of `detKeypointsHarris`

Shallow embedding of the keypoint loop of `detKeypointsHarris`
(`src/matching2D_Student.cpp`, lines 219-255) and the properties of it that
the specification states.

Modelling conventions.

* `float` and `double` values are rationals: every finite floating-point value is
  a rational, and the pass only converts them to `int`, compares them and copies
  them. Non-finite values and conversions outside the range of `int` are not
  modelled.
* `dst_norm`, the normalised response matrix, is the input of the pass: the
  library calls that compute it from the image (lines 200-205) lie outside the
  model.
* `cv::KeyPoint::overlap` belongs to the vision library. The pass receives it as
  the argument `overlap`; `DiscOverlap` states the one property of it that the
  results below use, and `discOverlap` is a computable instance.
* The locals `minResponse` (100), `apertureSize` (3) and `maxOverlap` (0.0) are
  arguments of `nmsScan`; `detKeypointsHarris` fixes them to the values of the
  source.
* The drawing under `bVis` (lines 258-266) reads the keypoints and does not change
  them; it is left out.
-/

namespace Harris

/-- The fields of `cv::KeyPoint`; `pt` is the `cv::Point2f` as the pair `(x, y)`. -/
structure KeyPoint where
  pt : ℚ × ℚ
  size : ℚ
  angle : ℚ
  response : ℚ
  octave : Int
  class_id : Int
deriving DecidableEq

/-- A single-channel `cv::Mat` of floats: `atFloat j i` is `at<float>(j, i)`, row `j`,
column `i`; only the entries with `j < rows` and `i < cols` are read. -/
structure Mat where
  rows : Nat
  cols : Nat
  atFloat : Nat → Nat → ℚ

/-- The conversion `(int)x` of a float: the fractional part is discarded
(rounding toward zero). -/
def toInt (x : ℚ) : Int :=
  if 0 ≤ x then ⌊x⌋ else ⌈x⌉

/-- The keypoint built at lines 229-232 for the cell in row `j`, column `i`: a
default-constructed `cv::KeyPoint` (angle -1, octave 0, class_id -1) whose
`pt`, `size` and `response` are then assigned. -/
def newKeyPoint (apertureSize : Int) (j i : Nat) (response : Int) : KeyPoint :=
  { pt := ((i : ℚ), (j : ℚ))
    size := ((2 * apertureSize : Int) : ℚ)
    angle := -1
    response := (response : ℚ)
    octave := 0
    class_id := -1 }

/-- The loop over the accepted keypoints, lines 236-248. The second argument is the
part of the vector still to visit, the third is `bOverlap` so far; the result is
that part after the loop together with the final `bOverlap`. A replacement ends
the loop (`break`), so the rest of the vector is returned untouched. -/
def nmsLoop (overlap : KeyPoint → KeyPoint → ℚ) (maxOverlap : ℚ) (newKp : KeyPoint) :
    List KeyPoint → Bool → List KeyPoint × Bool
  | [], bOverlap => ([], bOverlap)
  | it :: rest, bOverlap =>
    if overlap newKp it > maxOverlap then
      if newKp.response > it.response then
        (newKp :: rest, true)
      else
        ((nmsLoop overlap maxOverlap newKp rest true).1.cons it,
          (nmsLoop overlap maxOverlap newKp rest true).2)
    else
      ((nmsLoop overlap maxOverlap newKp rest bOverlap).1.cons it,
        (nmsLoop overlap maxOverlap newKp rest bOverlap).2)

/-- Lines 235-252: non-maximum suppression of one new keypoint against the vector
`keypoints`; when no accepted keypoint overlaps it, it is pushed to the back. -/
def nmsStep (overlap : KeyPoint → KeyPoint → ℚ) (maxOverlap : ℚ)
    (keypoints : List KeyPoint) (newKp : KeyPoint) : List KeyPoint :=
  if (nmsLoop overlap maxOverlap newKp keypoints false).2 then
    (nmsLoop overlap maxOverlap newKp keypoints false).1
  else
    (nmsLoop overlap maxOverlap newKp keypoints false).1 ++ [newKp]

/-- The body of the two loops, lines 225-253, for the cell in row `j`, column `i`. -/
def cellStep (overlap : KeyPoint → KeyPoint → ℚ) (maxOverlap : ℚ) (minResponse apertureSize : Int)
    (dst_norm : Mat) (j : Nat) (keypoints : List KeyPoint) (i : Nat) : List KeyPoint :=
  if toInt (dst_norm.atFloat j i) > minResponse then
    nmsStep overlap maxOverlap keypoints
      (newKeyPoint apertureSize j i (toInt (dst_norm.atFloat j i)))
  else
    keypoints

/-- The loop over the columns of row `j`, lines 223-254. -/
def rowStep (overlap : KeyPoint → KeyPoint → ℚ) (maxOverlap : ℚ) (minResponse apertureSize : Int)
    (dst_norm : Mat) (keypoints : List KeyPoint) (j : Nat) : List KeyPoint :=
  (List.range dst_norm.cols).foldl
    (cellStep overlap maxOverlap minResponse apertureSize dst_norm j) keypoints

/-- The loop over the rows, lines 221-255: the whole pass, from the vector
`keypoints` as the caller passed it. -/
def nmsScan (overlap : KeyPoint → KeyPoint → ℚ) (maxOverlap : ℚ) (minResponse apertureSize : Int)
    (keypoints : List KeyPoint) (dst_norm : Mat) : List KeyPoint :=
  (List.range dst_norm.rows).foldl
    (rowStep overlap maxOverlap minResponse apertureSize dst_norm) keypoints

/-- The keypoint pass of `detKeypointsHarris` with the constants of the source:
`maxOverlap = 0.0`, `minResponse = 100`, `apertureSize = 3`. -/
def detKeypointsHarris (overlap : KeyPoint → KeyPoint → ℚ)
    (keypoints : List KeyPoint) (dst_norm : Mat) : List KeyPoint :=
  nmsScan overlap 0 100 3 keypoints dst_norm

/-- Column-major variant of the pass, for the comparison of traversal orders: the
same cell body `cellStep` is run with the column index in the outer loop and the
row index in the inner loop. -/
def nmsScanColMajor (overlap : KeyPoint → KeyPoint → ℚ) (maxOverlap : ℚ)
    (minResponse apertureSize : Int) (keypoints : List KeyPoint) (dst_norm : Mat) :
    List KeyPoint :=
  (List.range dst_norm.cols).foldl
    (fun kps i => (List.range dst_norm.rows).foldl
      (fun kps2 j => cellStep overlap maxOverlap minResponse apertureSize dst_norm j kps2 i) kps)
    keypoints

/-- The cells `(j, i)` of the matrix in the order in which the two loops visit
them: row after row, each row by increasing column. -/
def cells (dst_norm : Mat) : List (Nat × Nat) :=
  (List.range dst_norm.rows).flatMap fun j => (List.range dst_norm.cols).map fun i => (j, i)

/-- The new keypoint that the cell `c = (j, i)` gives rise to, if its truncated
response is above `minResponse` (lines 225-232). -/
def candidateAt (minResponse apertureSize : Int) (dst_norm : Mat) (c : Nat × Nat) :
    Option KeyPoint :=
  if toInt (dst_norm.atFloat c.1 c.2) > minResponse then
    some (newKeyPoint apertureSize c.1 c.2 (toInt (dst_norm.atFloat c.1 c.2)))
  else
    none

/-- The candidates of a pass: all new keypoints it builds, in the order of the scan. -/
def candidates (minResponse apertureSize : Int) (dst_norm : Mat) : List KeyPoint :=
  (cells dst_norm).filterMap (candidateAt minResponse apertureSize dst_norm)

/-- The cells `(j, i)` of the matrix in column-major order: column after column,
each column by increasing row. -/
def cellsColMajor (dst_norm : Mat) : List (Nat × Nat) :=
  (List.range dst_norm.cols).flatMap fun i => (List.range dst_norm.rows).map fun j => (j, i)

/-- The candidates in the order in which the column-major traversal builds them. -/
def candidatesColMajor (minResponse apertureSize : Int) (dst_norm : Mat) : List KeyPoint :=
  (cellsColMajor dst_norm).filterMap (candidateAt minResponse apertureSize dst_norm)

/-- Squared Euclidean distance between the positions of two keypoints. -/
def distSq (kp1 kp2 : KeyPoint) : ℚ :=
  (kp1.pt.1 - kp2.pt.1) ^ 2 + (kp1.pt.2 - kp2.pt.2) ^ 2

/-- Modelled from the spec: `cv::KeyPoint::overlap` is a routine of the vision
library and its code is not part of this repository. It measures the overlap of the
two discs of diameter `size` centred at the keypoints, "0 = disjoint, 1 =
identical". The model follows the three cases of the routine: one disc inside the
other (ratio of the disc areas), discs apart (0), and discs that cross, where the
routine returns the ratio of the lens area to the union area; that ratio lies
strictly between 0 and 1 and is not rational, the model puts `1 / 2` in its place.
With `maxOverlap = 0.0` only the sign of the measure is used by the pass. -/
def discOverlap (kp1 kp2 : KeyPoint) : ℚ :=
  if distSq kp1 kp2 ≤ (max (kp1.size / 2) (kp2.size / 2) - min (kp1.size / 2) (kp2.size / 2)) ^ 2 then
    min ((kp1.size / 2) ^ 2) ((kp2.size / 2) ^ 2) / max ((kp1.size / 2) ^ 2) ((kp2.size / 2) ^ 2)
  else if 0 < kp1.size / 2 + kp2.size / 2 ∧ distSq kp1 kp2 < (kp1.size / 2 + kp2.size / 2) ^ 2 then
    1 / 2
  else
    0

/-- What the results below use of the library's overlap measure: for two keypoints
of positive size it is positive exactly when the two discs meet in more than a
point, that is when the distance of the centres is smaller than the sum of the two
radii `size / 2`. -/
def DiscOverlap (overlap : KeyPoint → KeyPoint → ℚ) : Prop :=
  ∀ kp1 kp2 : KeyPoint, 0 < kp1.size → 0 < kp2.size →
    (0 < overlap kp1 kp2 ↔ 4 * distSq kp1 kp2 < (kp1.size + kp2.size) ^ 2)

/-- A matrix given by its rows, for concrete maps; entries outside the rows are 0. -/
def Mat.ofRows (rows cols : Nat) (data : List (List ℚ)) : Mat :=
  { rows := rows
    cols := cols
    atFloat := fun j i => (data.getD j []).getD i 0 }

/-- The 5x5 map of the concrete scenario: 150 at row 2, column 2 and 200 at row 2,
column 3. -/
def scenarioMap : Mat :=
  Mat.ofRows 5 5
    [[0, 0, 0, 0, 0], [0, 0, 0, 0, 0], [0, 0, 150, 200, 0], [0, 0, 0, 0, 0], [0, 0, 0, 0, 0]]

/-- A 2x7 map with two responses 101 six columns apart in row 0 and the response 255
between them in row 1. -/
def crowdedMap : Mat :=
  Mat.ofRows 2 7 [[101, 0, 0, 0, 0, 0, 101], [0, 0, 0, 255, 0, 0, 0]]

/-- A 1x14 map with the responses 100.5 and 200 thirteen columns apart. -/
def farMap : Mat :=
  Mat.ofRows 1 14 [[201 / 2, 0, 0, 0, 0, 0, 0, 0, 0, 0, 0, 0, 0, 200]]

/-- The 1x1 map whose cell holds `r`. -/
def singleCell (r : ℚ) : Mat :=
  Mat.ofRows 1 1 [[r]]

/-- A 2x10 map on which the row-major and the column-major traversal disagree. -/
def orderMap : Mat :=
  Mat.ofRows 2 10 [[0, 0, 0, 0, 0, 0, 0, 0, 120, 0], [110, 0, 0, 0, 130, 0, 0, 0, 0, 0]]

/-! ## The pass as a fold over its candidates -/

theorem foldl_cellStep (ov : KeyPoint → KeyPoint → ℚ) (mo : ℚ) (t a : Int) (m : Mat) (j : Nat)
    (l : List Nat) (kps : List KeyPoint) :
    l.foldl (cellStep ov mo t a m j) kps =
      ((l.map fun i => (j, i)).filterMap (candidateAt t a m)).foldl (nmsStep ov mo) kps := by
  induction l generalizing kps with
  | nil => rfl
  | cons i l ih =>
    simp only [List.foldl_cons, List.map_cons, List.filterMap_cons, ih]
    by_cases h : toInt (m.atFloat j i) > t
    · simp [cellStep, candidateAt, h]
    · simp [cellStep, candidateAt, h]

theorem foldl_rowStep (ov : KeyPoint → KeyPoint → ℚ) (mo : ℚ) (t a : Int) (m : Mat)
    (l : List Nat) (kps : List KeyPoint) :
    l.foldl (rowStep ov mo t a m) kps =
      ((l.flatMap fun j => (List.range m.cols).map fun i => (j, i)).filterMap
        (candidateAt t a m)).foldl (nmsStep ov mo) kps := by
  induction l generalizing kps with
  | nil => rfl
  | cons j l ih =>
    simp only [List.foldl_cons, List.flatMap_cons, List.filterMap_append, List.foldl_append, ih]
    rw [rowStep, foldl_cellStep]

/-- The pass is the fold of `nmsStep` over the candidates, from the vector passed in. -/
theorem nmsScan_eq_foldl (ov : KeyPoint → KeyPoint → ℚ) (mo : ℚ) (t a : Int)
    (kps : List KeyPoint) (m : Mat) :
    nmsScan ov mo t a kps m = (candidates t a m).foldl (nmsStep ov mo) kps := by
  rw [nmsScan, foldl_rowStep, candidates, cells]

theorem mem_cells (m : Mat) (j i : Nat) : (j, i) ∈ cells m ↔ j < m.rows ∧ i < m.cols := by
  simp [cells]

/-! ## The overlap test on keypoints built by the pass -/

theorem discOverlap_spec : DiscOverlap discOverlap := by
  intro k1 k2 h1 h2
  have hd : 0 ≤ distSq k1 k2 := by unfold distSq; positivity
  unfold discOverlap
  split_ifs with hc hi
  · constructor
    · intro _
      have hm : (max (k1.size / 2) (k2.size / 2) - min (k1.size / 2) (k2.size / 2)) ^ 2
          < (k1.size / 2 + k2.size / 2) ^ 2 := by
        rcases le_total (k1.size / 2) (k2.size / 2) with h | h
        · rw [max_eq_right h, min_eq_left h]; nlinarith
        · rw [max_eq_left h, min_eq_right h]; nlinarith
      nlinarith
    · intro _
      apply div_pos
      · exact lt_min (by positivity) (by positivity)
      · exact lt_max_of_lt_left (by positivity)
  · constructor
    · intro _; nlinarith [hi.2]
    · intro _; norm_num
  · constructor
    · intro h; exact absurd h (lt_irrefl _)
    · intro h
      exfalso
      apply hi
      exact ⟨by positivity, by nlinarith⟩

theorem overlap_newKeyPoint {ov : KeyPoint → KeyPoint → ℚ} (hov : DiscOverlap ov) {a : Int}
    (ha : 0 < a) (j i j2 i2 : Nat) (r r2 : Int) :
    ov (newKeyPoint a j i r) (newKeyPoint a j2 i2 r2) > 0 ↔
      ((i : Int) - i2) ^ 2 + ((j : Int) - j2) ^ 2 < (2 * a) ^ 2 := by
  have hs : (0 : ℚ) < ((2 * a : Int) : ℚ) := by exact_mod_cast (by omega : (0 : Int) < 2 * a)
  rw [gt_iff_lt, hov _ _ (by simpa [newKeyPoint] using hs) (by simpa [newKeyPoint] using hs)]
  simp only [distSq, newKeyPoint]
  rw [← Int.cast_lt (R := ℚ)]
  push_cast
  constructor <;> intro h <;> nlinarith


/-! ## The loop over the accepted keypoints -/

theorem nmsLoop_length (ov : KeyPoint → KeyPoint → ℚ) (mo : ℚ) (c : KeyPoint)
    (l : List KeyPoint) (b : Bool) : (nmsLoop ov mo c l b).1.length = l.length := by
  induction l generalizing b with
  | nil => rfl
  | cons k l ih =>
    unfold nmsLoop
    split_ifs <;> simp [ih]

theorem nmsLoop_flag (ov : KeyPoint → KeyPoint → ℚ) (mo : ℚ) (c : KeyPoint)
    (l : List KeyPoint) (b : Bool) :
    (nmsLoop ov mo c l b).2 = true ↔ b = true ∨ ∃ k ∈ l, ov c k > mo := by
  induction l generalizing b with
  | nil => simp [nmsLoop]
  | cons k l ih =>
    unfold nmsLoop
    split_ifs with h1 h2
    · simp only [true_iff]
      exact Or.inr ⟨k, List.mem_cons_self _ _, h1⟩
    · simp only [ih, true_or, true_iff]
      exact Or.inr ⟨k, List.mem_cons_self _ _, h1⟩
    · simp only [ih, List.mem_cons, exists_eq_or_imp, h1, false_or]

theorem nmsLoop_no_lower (ov : KeyPoint → KeyPoint → ℚ) (mo : ℚ) (c : KeyPoint)
    (l : List KeyPoint) (b : Bool)
    (h : ∀ k ∈ l, ov c k > mo → ¬ c.response > k.response) :
    (nmsLoop ov mo c l b).1 = l := by
  induction l generalizing b with
  | nil => rfl
  | cons k l ih =>
    have hl : ∀ x ∈ l, ov c x > mo → ¬ c.response > x.response :=
      fun x hx => h x (List.mem_cons_of_mem _ hx)
    unfold nmsLoop
    split_ifs with h1 h2
    · exact absurd h2 (h k (List.mem_cons_self _ _) h1)
    · simp [ih _ hl]
    · simp [ih _ hl]

theorem nmsLoop_first_lower (ov : KeyPoint → KeyPoint → ℚ) (mo : ℚ) (c k : KeyPoint)
    (pre post : List KeyPoint) (b : Bool)
    (hpre : ∀ x ∈ pre, ov c x > mo → ¬ c.response > x.response)
    (hk : ov c k > mo) (hr : c.response > k.response) :
    (nmsLoop ov mo c (pre ++ k :: post) b).1 = pre ++ c :: post := by
  induction pre generalizing b with
  | nil => simp [nmsLoop, hk, hr]
  | cons x pre ih =>
    have hl : ∀ y ∈ pre, ov c y > mo → ¬ c.response > y.response :=
      fun y hy => hpre y (List.mem_cons_of_mem _ hy)
    rw [List.cons_append, nmsLoop]
    split_ifs with h1 h2
    · exact absurd h2 (hpre x (List.mem_cons_self _ _) h1)
    · simp [ih _ hl]
    · simp [ih _ hl]

/-- A list with an element satisfying `p` splits at the first such element. -/
theorem exists_first_split {α : Type} (p : α → Prop) (l : List α) (h : ∃ x ∈ l, p x) :
    ∃ pre k post, l = pre ++ k :: post ∧ p k ∧ ∀ x ∈ pre, ¬ p x := by
  induction l with
  | nil => simp at h
  | cons y l ih =>
    by_cases hy : p y
    · exact ⟨[], y, l, rfl, hy, by simp⟩
    · have h2 : ∃ x ∈ l, p x := by
        obtain ⟨x, hx, hpx⟩ := h
        rcases List.mem_cons.1 hx with rfl | hx
        · exact absurd hpx hy
        · exact ⟨x, hx, hpx⟩
      obtain ⟨pre, k, post, rfl, hk, hpre⟩ := ih h2
      refine ⟨y :: pre, k, post, rfl, hk, ?_⟩
      intro x hx
      rcases List.mem_cons.1 hx with rfl | hx
      · exact hy
      · exact hpre x hx

/-! ## One suppression step -/

theorem nmsStep_no_overlap (ov : KeyPoint → KeyPoint → ℚ) (mo : ℚ) (kps : List KeyPoint)
    (c : KeyPoint) (h : ∀ k ∈ kps, ¬ ov c k > mo) : nmsStep ov mo kps c = kps ++ [c] := by
  have hf : ¬ (nmsLoop ov mo c kps false).2 = true := by
    rw [nmsLoop_flag]
    rintro (h1 | ⟨k, hk, h2⟩)
    · exact Bool.false_ne_true h1
    · exact h k hk h2
  rw [nmsStep, if_neg hf, nmsLoop_no_lower ov mo c kps false (fun k hk h1 => absurd h1 (h k hk))]

theorem nmsStep_discard (ov : KeyPoint → KeyPoint → ℚ) (mo : ℚ) (kps : List KeyPoint)
    (c : KeyPoint) (h1 : ∃ k ∈ kps, ov c k > mo)
    (h2 : ∀ k ∈ kps, ov c k > mo → ¬ c.response > k.response) : nmsStep ov mo kps c = kps := by
  have hf : (nmsLoop ov mo c kps false).2 = true := (nmsLoop_flag ov mo c kps false).2 (Or.inr h1)
  rw [nmsStep, if_pos hf, nmsLoop_no_lower ov mo c kps false h2]

theorem nmsStep_replace (ov : KeyPoint → KeyPoint → ℚ) (mo : ℚ) (c k : KeyPoint)
    (pre post : List KeyPoint)
    (hpre : ∀ x ∈ pre, ov c x > mo → ¬ c.response > x.response)
    (hk : ov c k > mo) (hr : c.response > k.response) :
    nmsStep ov mo (pre ++ k :: post) c = pre ++ c :: post := by
  have hf : (nmsLoop ov mo c (pre ++ k :: post) false).2 = true :=
    (nmsLoop_flag ov mo c _ false).2 (Or.inr ⟨k, by simp, hk⟩)
  rw [nmsStep, if_pos hf, nmsLoop_first_lower ov mo c k pre post false hpre hk hr]

/-- The three outcomes of a step: the candidate is pushed to the back, or discarded, or
put in the place of the first overlapping keypoint of lower response. -/
theorem nmsStep_cases (ov : KeyPoint → KeyPoint → ℚ) (mo : ℚ) (kps : List KeyPoint)
    (c : KeyPoint) :
    nmsStep ov mo kps c = kps ++ [c] ∨
    ((∃ k ∈ kps, ov c k > mo ∧ c.response ≤ k.response) ∧ nmsStep ov mo kps c = kps) ∨
    (∃ pre k post, kps = pre ++ k :: post ∧ c.response > k.response ∧
      nmsStep ov mo kps c = pre ++ c :: post) := by
  by_cases h1 : ∃ k ∈ kps, ov c k > mo
  · by_cases h2 : ∃ k ∈ kps, ov c k > mo ∧ c.response > k.response
    · obtain ⟨pre, k, post, rfl, ⟨hk, hr⟩, hpre⟩ := exists_first_split _ kps h2
      refine Or.inr (Or.inr ⟨pre, k, post, rfl, hr, ?_⟩)
      exact nmsStep_replace ov mo c k pre post (fun x hx hx1 hx2 => hpre x hx ⟨hx1, hx2⟩) hk hr
    · have h3 : ∀ k ∈ kps, ov c k > mo → ¬ c.response > k.response :=
        fun k hk hk1 hk2 => h2 ⟨k, hk, hk1, hk2⟩
      obtain ⟨k, hk, hk1⟩ := h1
      exact Or.inr (Or.inl ⟨⟨k, hk, hk1, not_lt.1 (h3 k hk hk1)⟩,
        nmsStep_discard ov mo kps c ⟨k, hk, hk1⟩ h3⟩)
  · exact Or.inl (nmsStep_no_overlap ov mo kps c (fun k hk hk1 => h1 ⟨k, hk, hk1⟩))

theorem nmsStep_length_ge (ov : KeyPoint → KeyPoint → ℚ) (mo : ℚ) (kps : List KeyPoint)
    (c : KeyPoint) : kps.length ≤ (nmsStep ov mo kps c).length := by
  rcases nmsStep_cases ov mo kps c with h | ⟨_, h⟩ | ⟨pre, k, post, rfl, _, h⟩ <;> rw [h] <;> simp

theorem nmsStep_length_le (ov : KeyPoint → KeyPoint → ℚ) (mo : ℚ) (kps : List KeyPoint)
    (c : KeyPoint) : (nmsStep ov mo kps c).length ≤ kps.length + 1 := by
  rcases nmsStep_cases ov mo kps c with h | ⟨_, h⟩ | ⟨pre, k, post, rfl, _, h⟩ <;> rw [h] <;> simp

theorem nmsStep_mem (ov : KeyPoint → KeyPoint → ℚ) (mo : ℚ) (kps : List KeyPoint)
    (c x : KeyPoint) (hx : x ∈ nmsStep ov mo kps c) : x ∈ kps ∨ x = c := by
  rcases nmsStep_cases ov mo kps c with h | ⟨_, h⟩ | ⟨pre, k, post, rfl, _, h⟩
  · rw [h] at hx; simpa using hx
  · rw [h] at hx; exact Or.inl hx
  · rw [h] at hx
    simp only [List.mem_append, List.mem_cons] at hx ⊢
    tauto

theorem nmsStep_dominates (ov : KeyPoint → KeyPoint → ℚ) (mo : ℚ) (kps : List KeyPoint)
    (c k : KeyPoint) (hk : k ∈ kps) : ∃ x ∈ nmsStep ov mo kps c, k.response ≤ x.response := by
  rcases nmsStep_cases ov mo kps c with h | ⟨_, h⟩ | ⟨pre, k2, post, rfl, hr, h⟩
  · exact ⟨k, by rw [h]; simp [hk], le_refl _⟩
  · exact ⟨k, by rw [h]; exact hk, le_refl _⟩
  · rw [h]
    simp only [List.mem_append, List.mem_cons] at hk
    rcases hk with hk | rfl | hk
    · exact ⟨k, by simp [hk], le_refl _⟩
    · exact ⟨c, by simp, le_of_lt hr⟩
    · exact ⟨k, by simp [hk], le_refl _⟩

theorem nmsStep_dominates_new (ov : KeyPoint → KeyPoint → ℚ) (mo : ℚ) (kps : List KeyPoint)
    (c : KeyPoint) : ∃ x ∈ nmsStep ov mo kps c, c.response ≤ x.response := by
  rcases nmsStep_cases ov mo kps c with h | ⟨⟨k, hk, _, hr⟩, h⟩ | ⟨pre, k2, post, rfl, _, h⟩
  · exact ⟨c, by rw [h]; simp, le_refl _⟩
  · exact ⟨k, by rw [h]; exact hk, hr⟩
  · exact ⟨c, by rw [h]; simp, le_refl _⟩

/-! ## Folding the step over a list of candidates -/

theorem foldl_nmsStep_length_ge (ov : KeyPoint → KeyPoint → ℚ) (mo : ℚ) (cs kps : List KeyPoint) :
    kps.length ≤ (cs.foldl (nmsStep ov mo) kps).length := by
  induction cs generalizing kps with
  | nil => exact le_refl _
  | cons c cs ih => exact le_trans (nmsStep_length_ge ov mo kps c) (ih _)

theorem foldl_nmsStep_length_le (ov : KeyPoint → KeyPoint → ℚ) (mo : ℚ) (cs kps : List KeyPoint) :
    (cs.foldl (nmsStep ov mo) kps).length ≤ kps.length + cs.length := by
  induction cs generalizing kps with
  | nil => exact le_refl _
  | cons c cs ih =>
    have h1 := ih (nmsStep ov mo kps c)
    have h2 := nmsStep_length_le ov mo kps c
    simp only [List.foldl_cons, List.length_cons]
    omega

theorem foldl_nmsStep_mem (ov : KeyPoint → KeyPoint → ℚ) (mo : ℚ) (cs kps : List KeyPoint)
    (x : KeyPoint) (hx : x ∈ cs.foldl (nmsStep ov mo) kps) : x ∈ kps ∨ x ∈ cs := by
  induction cs generalizing kps with
  | nil => exact Or.inl hx
  | cons c cs ih =>
    rcases ih _ hx with h | h
    · rcases nmsStep_mem ov mo kps c x h with h | h
      · exact Or.inl h
      · exact Or.inr (by simp [h])
    · exact Or.inr (List.mem_cons_of_mem _ h)

theorem foldl_nmsStep_dominates (ov : KeyPoint → KeyPoint → ℚ) (mo : ℚ) (cs kps : List KeyPoint)
    (k : KeyPoint) (hk : k ∈ kps ∨ k ∈ cs) :
    ∃ x ∈ cs.foldl (nmsStep ov mo) kps, k.response ≤ x.response := by
  induction cs generalizing kps k with
  | nil =>
    rcases hk with hk | hk
    · exact ⟨k, hk, le_refl _⟩
    · simp at hk
  | cons c cs ih =>
    simp only [List.foldl_cons]
    rcases hk with hk | hk
    · obtain ⟨y, hy, hky⟩ := nmsStep_dominates ov mo kps c k hk
      obtain ⟨x, hx, hyx⟩ := ih (nmsStep ov mo kps c) y (Or.inl hy)
      exact ⟨x, hx, le_trans hky hyx⟩
    · rcases List.mem_cons.1 hk with rfl | hk
      · obtain ⟨y, hy, hky⟩ := nmsStep_dominates_new ov mo kps k
        obtain ⟨x, hx, hyx⟩ := ih (nmsStep ov mo kps k) y (Or.inl hy)
        exact ⟨x, hx, le_trans hky hyx⟩
      · exact ih (nmsStep ov mo kps c) k (Or.inr hk)

/-! ## The candidates of a pass -/

theorem mem_candidates (t a : Int) (m : Mat) (k : KeyPoint) :
    k ∈ candidates t a m ↔ ∃ j i, j < m.rows ∧ i < m.cols ∧ toInt (m.atFloat j i) > t ∧
      k = newKeyPoint a j i (toInt (m.atFloat j i)) := by
  simp only [candidates, List.mem_filterMap, candidateAt, Prod.exists, mem_cells]
  constructor
  · rintro ⟨j, i, ⟨hj, hi⟩, h⟩
    split_ifs at h with hr
    · exact ⟨j, i, hj, hi, hr, (Option.some.inj h).symm⟩
  · rintro ⟨j, i, hj, hi, hr, rfl⟩
    exact ⟨j, i, ⟨hj, hi⟩, by rw [if_pos hr]⟩

theorem toInt_le_of_le {x : ℚ} {t : Int} (h : x ≤ (t : ℚ)) : toInt x ≤ t := by
  unfold toInt
  split_ifs
  · exact le_trans (Int.floor_le_ceil x) (Int.ceil_le.2 h)
  · exact Int.ceil_le.2 h

theorem candidates_eq_nil (t a : Int) (m : Mat)
    (h : ∀ j < m.rows, ∀ i < m.cols, ¬ t < toInt (m.atFloat j i)) : candidates t a m = [] := by
  apply List.eq_nil_iff_forall_not_mem.2
  intro k hk
  obtain ⟨j, i, hj, hi, hr, _⟩ := (mem_candidates t a m k).1 hk
  exact h j hj i hi hr

theorem candidates_filter (t1 t2 a : Int) (m : Mat) (h : t1 ≤ t2) :
    candidates t2 a m = (candidates t1 a m).filter fun k => decide ((t2 : ℚ) < k.response) := by
  unfold candidates
  rw [List.filter_filterMap]
  congr 1
  funext c
  unfold candidateAt
  by_cases h2 : toInt (m.atFloat c.1 c.2) > t2
  · have h1 : toInt (m.atFloat c.1 c.2) > t1 := lt_of_le_of_lt h h2
    have h3 : (t2 : ℚ) < ((toInt (m.atFloat c.1 c.2) : Int) : ℚ) := by exact_mod_cast h2
    simp [h1, h2, h3, newKeyPoint, Option.filter]
  · by_cases h1 : toInt (m.atFloat c.1 c.2) > t1
    · have h3 : ¬ (t2 : ℚ) < ((toInt (m.atFloat c.1 c.2) : Int) : ℚ) := by exact_mod_cast h2
      simp [h1, h2, h3, newKeyPoint, Option.filter]
    · simp [h1, h2]

theorem exists_max_response (l : List KeyPoint) (h : l ≠ []) :
    ∃ x ∈ l, ∀ y ∈ l, y.response ≤ x.response := by
  induction l with
  | nil => exact absurd rfl h
  | cons k l ih =>
    by_cases hl : l = []
    · subst hl
      exact ⟨k, by simp, by simp⟩
    · obtain ⟨x, hx, hmax⟩ := ih hl
      rcases le_total x.response k.response with hxk | hkx
      · refine ⟨k, by simp, ?_⟩
        intro y hy
        rcases List.mem_cons.1 hy with rfl | hy
        · exact le_refl _
        · exact le_trans (hmax y hy) hxk
      · refine ⟨x, List.mem_cons_of_mem _ hx, ?_⟩
        intro y hy
        rcases List.mem_cons.1 hy with rfl | hy
        · exact hkx
        · exact hmax y hy

theorem candidates_eq_map_filter (t a : Int) (m : Mat) :
    candidates t a m =
      ((cells m).filter fun c => decide (t < toInt (m.atFloat c.1 c.2))).map
        fun c => newKeyPoint a c.1 c.2 (toInt (m.atFloat c.1 c.2)) := by
  unfold candidates
  induction cells m with
  | nil => rfl
  | cons c l ih =>
    by_cases h : t < toInt (m.atFloat c.1 c.2)
    · simp [List.filterMap_cons, candidateAt, h, ih]
    · simp [List.filterMap_cons, candidateAt, h, ih]

theorem cells_nodup (m : Mat) : (cells m).Nodup := by
  unfold cells
  rw [List.nodup_flatMap]
  constructor
  · intro j _
    exact (List.nodup_range _).map (fun i i2 h => (Prod.mk.inj h).2)
  · refine (List.nodup_range m.rows).imp ?_
    intro j j2 hne c hc hc2
    simp only [List.mem_map] at hc hc2
    obtain ⟨i, _, rfl⟩ := hc
    obtain ⟨i2, _, h⟩ := hc2
    exact hne (Prod.mk.inj h).1.symm

/-- A list without repetition whose elements are exactly `x` and `y` is `[x, y]` or
`[y, x]`. -/
theorem eq_pair_of_nodup {α : Type} (l : List α) (x y : α) (hl : l.Nodup) (hxy : x ≠ y)
    (h : ∀ z, z ∈ l ↔ z = x ∨ z = y) : l = [x, y] ∨ l = [y, x] := by
  match l, hl, h with
  | [], _, h => exact absurd ((h x).2 (Or.inl rfl)) (List.not_mem_nil _)
  | [u], _, h =>
    have hx := (h x).2 (Or.inl rfl)
    have hy := (h y).2 (Or.inr rfl)
    simp only [List.mem_singleton] at hx hy
    exact absurd (hx.trans hy.symm) hxy
  | [u, v], hl, h =>
    have hu := (h u).1 (by simp)
    have hv := (h v).1 (by simp)
    have huv : u ≠ v := by
      intro e
      simp [e] at hl
    rcases hu with rfl | rfl <;> rcases hv with rfl | rfl
    · exact absurd rfl huv
    · exact Or.inl rfl
    · exact Or.inr rfl
    · exact absurd rfl huv
  | u :: v :: w :: rest, hl, h =>
    have hu := (h u).1 (by simp)
    have hv := (h v).1 (by simp)
    have hw := (h w).1 (by simp)
    simp only [List.nodup_cons, List.mem_cons, not_or] at hl
    obtain ⟨⟨huv, huw, _⟩, ⟨hvw, _⟩, _⟩ := hl
    exfalso
    rcases hu with rfl | rfl <;> rcases hv with rfl | rfl <;> rcases hw with rfl | rfl <;>
      first
        | exact huv rfl
        | exact huw rfl
        | exact hvw rfl

theorem toInt_fractional : toInt (201 / 2) = 100 ∧ toInt (301 / 2) = 150 := by
  constructor
  · unfold toInt
    rw [if_pos (by norm_num), Int.floor_eq_iff]
    norm_num
  · unfold toInt
    rw [if_pos (by norm_num), Int.floor_eq_iff]
    norm_num

/-! ## Positions of the accepted keypoints -/

theorem nmsStep_pt_nodup (ov : KeyPoint → KeyPoint → ℚ) (mo : ℚ) (kps rest : List KeyPoint)
    (c : KeyPoint) (h : (kps.map KeyPoint.pt ++ (c :: rest).map KeyPoint.pt).Nodup) :
    ((nmsStep ov mo kps c).map KeyPoint.pt ++ rest.map KeyPoint.pt).Nodup := by
  rcases nmsStep_cases ov mo kps c with e | ⟨_, e⟩ | ⟨pre, k, post, rfl, _, e⟩
  · rw [e]
    simpa using h
  · rw [e]
    exact h.sublist (List.Sublist.append_left (List.sublist_cons_self _ _) _)
  · rw [e]
    simp only [List.map_append, List.map_cons, List.append_assoc, List.cons_append] at h ⊢
    rw [List.nodup_middle] at h ⊢
    have h2 := h.of_cons
    rw [← List.append_assoc, List.nodup_middle, List.append_assoc] at h2
    exact h2

theorem foldl_nmsStep_pt_nodup (ov : KeyPoint → KeyPoint → ℚ) (mo : ℚ) (cs kps : List KeyPoint)
    (h : (kps.map KeyPoint.pt ++ cs.map KeyPoint.pt).Nodup) :
    ((cs.foldl (nmsStep ov mo) kps).map KeyPoint.pt).Nodup := by
  induction cs generalizing kps with
  | nil => simpa using h
  | cons c cs ih => exact ih _ (nmsStep_pt_nodup ov mo kps cs c h)

theorem candidates_pt_nodup (t a : Int) (m : Mat) :
    ((candidates t a m).map KeyPoint.pt).Nodup := by
  rw [candidates_eq_map_filter, List.map_map]
  refine ((cells_nodup m).filter _).map ?_
  rintro ⟨j, i⟩ ⟨j2, i2⟩ h
  simp only [Function.comp, newKeyPoint, Prod.mk.injEq, Nat.cast_inj] at h
  rw [h.1, h.2]

/-! ## The column-major traversal -/

theorem foldl_cellStep_col (ov : KeyPoint → KeyPoint → ℚ) (mo : ℚ) (t a : Int) (m : Mat)
    (i : Nat) (l : List Nat) (kps : List KeyPoint) :
    l.foldl (fun kps2 j => cellStep ov mo t a m j kps2 i) kps =
      ((l.map fun j => (j, i)).filterMap (candidateAt t a m)).foldl (nmsStep ov mo) kps := by
  induction l generalizing kps with
  | nil => rfl
  | cons j l ih =>
    simp only [List.foldl_cons, List.map_cons, List.filterMap_cons, ih]
    by_cases h : toInt (m.atFloat j i) > t
    · simp [cellStep, candidateAt, h]
    · simp [cellStep, candidateAt, h]

theorem foldl_colStep (ov : KeyPoint → KeyPoint → ℚ) (mo : ℚ) (t a : Int) (m : Mat)
    (l : List Nat) (kps : List KeyPoint) :
    l.foldl (fun kps1 i => (List.range m.rows).foldl
        (fun kps2 j => cellStep ov mo t a m j kps2 i) kps1) kps =
      ((l.flatMap fun i => (List.range m.rows).map fun j => (j, i)).filterMap
        (candidateAt t a m)).foldl (nmsStep ov mo) kps := by
  induction l generalizing kps with
  | nil => rfl
  | cons i l ih =>
    simp only [List.foldl_cons, List.flatMap_cons, List.filterMap_append, List.foldl_append, ih]
    rw [foldl_cellStep_col]

/-- The column-major traversal is the fold of `nmsStep` over the candidates taken in
column-major order. -/
theorem nmsScanColMajor_eq_foldl (ov : KeyPoint → KeyPoint → ℚ) (mo : ℚ) (t a : Int)
    (kps : List KeyPoint) (m : Mat) :
    nmsScanColMajor ov mo t a kps m = (candidatesColMajor t a m).foldl (nmsStep ov mo) kps := by
  rw [nmsScanColMajor, foldl_colStep, candidatesColMajor, cellsColMajor]

theorem mem_cellsColMajor (m : Mat) (j i : Nat) :
    (j, i) ∈ cellsColMajor m ↔ j < m.rows ∧ i < m.cols := by
  simp only [cellsColMajor, List.mem_flatMap, List.mem_map, List.mem_range, Prod.mk.injEq]
  constructor
  · rintro ⟨i2, hi, j2, hj, rfl, rfl⟩
    exact ⟨hj, hi⟩
  · rintro ⟨hj, hi⟩
    exact ⟨i, hi, j, hj, rfl, rfl⟩

theorem cellsColMajor_nodup (m : Mat) : (cellsColMajor m).Nodup := by
  unfold cellsColMajor
  rw [List.nodup_flatMap]
  constructor
  · intro i _
    exact (List.nodup_range _).map (fun j j2 h => (Prod.mk.inj h).1)
  · refine (List.nodup_range m.cols).imp ?_
    intro i i2 hne c hc hc2
    simp only [List.mem_map] at hc hc2
    obtain ⟨j, _, rfl⟩ := hc
    obtain ⟨j2, _, h⟩ := hc2
    exact hne (Prod.mk.inj h).2.symm

/-- Both traversals visit the same cells, so they build the same candidates, in another
order. -/
theorem candidatesColMajor_perm (t a : Int) (m : Mat) :
    (candidatesColMajor t a m).Perm (candidates t a m) := by
  unfold candidatesColMajor candidates
  apply List.Perm.filterMap
  rw [List.perm_ext_iff_of_nodup (cellsColMajor_nodup m) (cells_nodup m)]
  rintro ⟨j, i⟩
  rw [mem_cellsColMajor, mem_cells]

/-! ## Evaluation of the step on keypoints built by the pass -/

@[simp]
theorem newKeyPoint_response (a : Int) (j i : Nat) (r : Int) :
    (newKeyPoint a j i r).response = (r : ℚ) := rfl

theorem discOverlap_newKeyPoint {a : Int} (ha : 0 < a) (j i j2 i2 : Nat) (r r2 : Int) :
    0 < discOverlap (newKeyPoint a j i r) (newKeyPoint a j2 i2 r2) ↔
      ((i : Int) - i2) ^ 2 + ((j : Int) - j2) ^ 2 < (2 * a) ^ 2 :=
  overlap_newKeyPoint discOverlap_spec ha j i j2 i2 r r2

/-! ## The claims -/

/-- C1 (the code breaks the invariant): on `crowdedMap` the pass returns the two
keypoints at (x=3, y=1) and (x=6, y=0), which are distinct and whose overlap measure is
above the threshold 0.0. The candidate at (3, 1) overlaps both keypoints accepted
before; it replaces the first one and the loop stops without looking at the second. -/
theorem crowdedMap_overlapping_pair :
    detKeypointsHarris discOverlap [] crowdedMap
        = [newKeyPoint 3 1 3 255, newKeyPoint 3 0 6 101] ∧
      discOverlap (newKeyPoint 3 1 3 255) (newKeyPoint 3 0 6 101) > 0 ∧
      newKeyPoint 3 1 3 255 ≠ newKeyPoint 3 0 6 101 := by
  have h3 : (0 : Int) < 3 := by decide
  refine ⟨?_, ?_, ?_⟩
  · simp [detKeypointsHarris, nmsScan, rowStep, cellStep, List.range_succ, Mat.ofRows,
      crowdedMap, toInt, nmsStep, nmsLoop, discOverlap_newKeyPoint h3]
    norm_num
  · rw [gt_iff_lt, discOverlap_newKeyPoint h3]
    decide
  · simp [newKeyPoint]

/-- Raising the threshold only shrinks the candidates: for thresholds `t1 ≤ t2` the
candidates of the pass with `t2` are a sublist of the candidates with `t1`, and the pass
started from an empty vector returns at most as many keypoints as it has candidates. -/
theorem candidates_antitone (ov : KeyPoint → KeyPoint → ℚ) (mo : ℚ) (a : Int) (m : Mat)
    (t1 t2 : Int) (h : t1 ≤ t2) :
    (candidates t2 a m).Sublist (candidates t1 a m) ∧
      (candidates t2 a m).length ≤ (candidates t1 a m).length ∧
      (nmsScan ov mo t2 a [] m).length ≤ (candidates t2 a m).length := by
  have hs : (candidates t2 a m).Sublist (candidates t1 a m) := by
    rw [candidates_filter t1 t2 a m h]
    exact List.filter_sublist _
  refine ⟨hs, hs.length_le, ?_⟩
  rw [nmsScan_eq_foldl]
  simpa using foldl_nmsStep_length_le ov mo (candidates t2 a m) []

/-- C3: on the 5x5 map with 150 at row 2, column 2 and 200 at row 2, column 3, with
threshold 100, neighbourhood size 6 and overlap threshold 0.0, the pass started from an
empty vector returns exactly one keypoint, at (x=3, y=2), with response 200 and size 6. -/
theorem detKeypointsHarris_scenario (ov : KeyPoint → KeyPoint → ℚ) (hov : DiscOverlap ov) :
    ∃ k : KeyPoint, detKeypointsHarris ov [] scenarioMap = [k] ∧
      k.pt = (3, 2) ∧ k.response = 200 ∧ k.size = 6 := by
  have h3 : (0 : Int) < 3 := by decide
  refine ⟨newKeyPoint 3 2 3 200, ?_, ?_, ?_, ?_⟩
  · simp [detKeypointsHarris, nmsScan, rowStep, cellStep, List.range_succ, Mat.ofRows,
      scenarioMap, toInt, nmsStep, nmsLoop, overlap_newKeyPoint hov h3]
    norm_num
  · simp [newKeyPoint]
  · simp
  · simp [newKeyPoint]

theorem detKeypointsHarris_scenario_witness :
    DiscOverlap discOverlap ∧
      ∃ k : KeyPoint, detKeypointsHarris discOverlap [] scenarioMap = [k] ∧
        k.pt = (3, 2) ∧ k.response = 200 ∧ k.size = 6 :=
  ⟨discOverlap_spec, detKeypointsHarris_scenario discOverlap discOverlap_spec⟩

/-- C4: when no cell's response exceeds the threshold (whether the response is read as
the float of the map or as the integer the pass truncates it to), the pass started
from an empty vector returns an empty vector. -/
theorem nmsScan_below_threshold (ov : KeyPoint → KeyPoint → ℚ) (mo : ℚ) (t a : Int) (m : Mat)
    (h : ∀ j < m.rows, ∀ i < m.cols,
      ¬ (t : ℚ) < m.atFloat j i ∨ ¬ t < toInt (m.atFloat j i)) :
    nmsScan ov mo t a [] m = [] := by
  rw [nmsScan_eq_foldl, candidates_eq_nil]
  · rfl
  · intro j hj i hi
    rcases h j hj i hi with h1 | h1
    · exact not_lt.2 (toInt_le_of_le (not_lt.1 h1))
    · exact h1

theorem nmsScan_below_threshold_witness :
    (∀ j < scenarioMap.rows, ∀ i < scenarioMap.cols,
        ¬ ((200 : Int) : ℚ) < scenarioMap.atFloat j i ∨
          ¬ (200 : Int) < toInt (scenarioMap.atFloat j i)) ∧
      nmsScan discOverlap 0 200 3 [] scenarioMap = [] := by
  have h : ∀ j < scenarioMap.rows, ∀ i < scenarioMap.cols,
      ¬ ((200 : Int) : ℚ) < scenarioMap.atFloat j i ∨
        ¬ (200 : Int) < toInt (scenarioMap.atFloat j i) := by
    intro j hj i hi
    left
    simp only [scenarioMap, Mat.ofRows] at hj hi ⊢
    interval_cases j <;> interval_cases i <;> norm_num
  exact ⟨h, nmsScan_below_threshold discOverlap 0 200 3 scenarioMap h⟩

/-- C5 (counterexample): in `farMap` exactly the two cells of columns 0 and 13 hold a
response above the threshold 100 (100.5 and 200), they are 13 > 2 * 6 apart, and the
pass returns one keypoint only: the response 100.5 is truncated to 100. -/
theorem farMap_single_keypoint :
    (∀ i < 14, ((100 : Int) : ℚ) < farMap.atFloat 0 i ↔ i = 0 ∨ i = 13) ∧
      farMap.rows = 1 ∧ farMap.cols = 14 ∧ (2 * 6 : ℚ) ^ 2 < (13 - 0) ^ 2 + (0 - 0) ^ 2 ∧
      detKeypointsHarris discOverlap [] farMap = [newKeyPoint 3 0 13 200] := by
  have h3 : (0 : Int) < 3 := by decide
  refine ⟨?_, rfl, rfl, by norm_num, ?_⟩
  · intro i hi
    simp only [farMap, Mat.ofRows]
    interval_cases i <;> norm_num
  · simp [detKeypointsHarris, nmsScan, rowStep, cellStep, List.range_succ, Mat.ofRows,
      farMap, toInt_fractional.1]
    simp [toInt, nmsStep, nmsLoop, discOverlap_newKeyPoint h3]

/-- C5 (amended): when exactly two cells have an integer-truncated response above the
threshold and they are farther apart than twice the neighbourhood size `2 * apertureSize`,
the pass started from an empty vector returns exactly two keypoints, one at each of the
two cells with that cell's truncated response, whatever the order of the two responses. -/
theorem nmsScan_two_far_cells (ov : KeyPoint → KeyPoint → ℚ) (hov : DiscOverlap ov)
    (t a : Int) (ha : 0 < a) (m : Mat) (j1 i1 j2 i2 : Nat)
    (h1 : j1 < m.rows ∧ i1 < m.cols) (h2 : j2 < m.rows ∧ i2 < m.cols)
    (hcand : ∀ j < m.rows, ∀ i < m.cols,
      (t < toInt (m.atFloat j i) ↔ (j, i) = (j1, i1) ∨ (j, i) = (j2, i2)))
    (hfar : (2 * (2 * a)) ^ 2 < ((i1 : Int) - i2) ^ 2 + ((j1 : Int) - j2) ^ 2) :
    (nmsScan ov 0 t a [] m).length = 2 ∧
      newKeyPoint a j1 i1 (toInt (m.atFloat j1 i1)) ∈ nmsScan ov 0 t a [] m ∧
      newKeyPoint a j2 i2 (toInt (m.atFloat j2 i2)) ∈ nmsScan ov 0 t a [] m := by
  have hne : (j1, i1) ≠ (j2, i2) := by
    intro e
    obtain ⟨rfl, rfl⟩ := Prod.mk.inj e
    simp only [sub_self] at hfar
    nlinarith
  have hno : ∀ (r r2 : Int), ¬ ov (newKeyPoint a j1 i1 r) (newKeyPoint a j2 i2 r2) > 0 := by
    intro r r2
    rw [overlap_newKeyPoint hov ha]
    nlinarith
  have hno2 : ∀ (r r2 : Int), ¬ ov (newKeyPoint a j2 i2 r) (newKeyPoint a j1 i1 r2) > 0 := by
    intro r r2
    rw [overlap_newKeyPoint hov ha]
    nlinarith
  have hmem : ∀ z, z ∈ (cells m).filter (fun c => decide (t < toInt (m.atFloat c.1 c.2))) ↔
      z = (j1, i1) ∨ z = (j2, i2) := by
    rintro ⟨j, i⟩
    simp only [List.mem_filter, mem_cells, decide_eq_true_eq]
    constructor
    · rintro ⟨⟨hj, hi⟩, hr⟩
      exact (hcand j hj i hi).1 hr
    · rintro (e | e)
      · obtain ⟨rfl, rfl⟩ := Prod.mk.inj e
        exact ⟨h1, (hcand j h1.1 i h1.2).2 (Or.inl rfl)⟩
      · obtain ⟨rfl, rfl⟩ := Prod.mk.inj e
        exact ⟨h2, (hcand j h2.1 i h2.2).2 (Or.inr rfl)⟩
  have hstep : ∀ k1 k2 : KeyPoint, ¬ ov k2 k1 > 0 →
      [k1, k2].foldl (nmsStep ov 0) [] = [k1, k2] := by
    intro k1 k2 hk
    have e1 : nmsStep ov 0 [] k1 = [k1] := by
      simpa using nmsStep_no_overlap ov 0 [] k1 (by simp)
    have e2 : nmsStep ov 0 [k1] k2 = [k1, k2] := by
      simpa using nmsStep_no_overlap ov 0 [k1] k2 (by simpa using hk)
    simp [e1, e2]
  rw [nmsScan_eq_foldl, candidates_eq_map_filter]
  rcases eq_pair_of_nodup _ _ _ ((cells_nodup m).filter _) hne hmem with e | e
  · rw [e]
    simp only [List.map_cons, List.map_nil]
    rw [hstep _ _ (hno2 _ _)]
    simp
  · rw [e]
    simp only [List.map_cons, List.map_nil]
    rw [hstep _ _ (hno _ _)]
    simp

theorem nmsScan_two_far_cells_witness :
    DiscOverlap discOverlap ∧ (0 : Int) < 3 ∧
      (0 < farMap.rows ∧ 0 < farMap.cols) ∧ (0 < farMap.rows ∧ 13 < farMap.cols) ∧
      (∀ j < farMap.rows, ∀ i < farMap.cols,
        ((50 : Int) < toInt (farMap.atFloat j i) ↔ (j, i) = (0, 0) ∨ (j, i) = (0, 13))) ∧
      ((2 * (2 * 3)) ^ 2 < (((0 : Nat) : Int) - (13 : Nat)) ^ 2 + (((0 : Nat) : Int) - (0 : Nat)) ^ 2) ∧
      ((nmsScan discOverlap 0 50 3 [] farMap).length = 2 ∧
        newKeyPoint 3 0 0 (toInt (farMap.atFloat 0 0)) ∈ nmsScan discOverlap 0 50 3 [] farMap ∧
        newKeyPoint 3 0 13 (toInt (farMap.atFloat 0 13)) ∈ nmsScan discOverlap 0 50 3 [] farMap) := by
  have hr : (0 < farMap.rows ∧ 0 < farMap.cols) := by decide
  have hc : (0 < farMap.rows ∧ 13 < farMap.cols) := by decide
  have hcand : ∀ j < farMap.rows, ∀ i < farMap.cols,
      ((50 : Int) < toInt (farMap.atFloat j i) ↔ (j, i) = (0, 0) ∨ (j, i) = (0, 13)) := by
    intro j hj i hi
    simp only [farMap, Mat.ofRows] at hj hi ⊢
    interval_cases j
    interval_cases i <;> simp [toInt_fractional.1] <;> simp [toInt]
  have hfar : ((2 * (2 * 3)) ^ 2 : Int) <
      (((0 : Nat) : Int) - (13 : Nat)) ^ 2 + (((0 : Nat) : Int) - (0 : Nat)) ^ 2 := by decide
  exact ⟨discOverlap_spec, by decide, hr, hc, hcand, hfar,
    nmsScan_two_far_cells discOverlap discOverlap_spec 50 3 (by decide) farMap 0 0 0 13
      hr hc hcand hfar⟩

/-- C6 (counterexample): on the 1x1 map with response 0 the pass leaves an empty vector
when the vector was empty, and leaves the prior keypoint when the vector held one. -/
theorem prior_contents_kept :
    detKeypointsHarris discOverlap [] (singleCell 0) = [] ∧
      detKeypointsHarris discOverlap [newKeyPoint 3 0 0 255] (singleCell 0)
        = [newKeyPoint 3 0 0 255] ∧
      detKeypointsHarris discOverlap [] (singleCell 0)
        ≠ detKeypointsHarris discOverlap [newKeyPoint 3 0 0 255] (singleCell 0) := by
  have e1 : detKeypointsHarris discOverlap [] (singleCell 0) = [] := by
    simp [detKeypointsHarris, nmsScan, rowStep, cellStep, List.range_succ, Mat.ofRows,
      singleCell, toInt]
  have e2 : detKeypointsHarris discOverlap [newKeyPoint 3 0 0 255] (singleCell 0)
      = [newKeyPoint 3 0 0 255] := by
    simp [detKeypointsHarris, nmsScan, rowStep, cellStep, List.range_succ, Mat.ofRows,
      singleCell, toInt]
  refine ⟨e1, e2, ?_⟩
  rw [e1, e2]
  simp

/-- C6 (amended): the keypoints left by the pass are a function of the response map,
the parameters and the prior contents of the vector. The pass does not empty the
vector: it folds the suppression step over its candidates starting from the prior
contents, and the vector it leaves is never shorter than the prior one. -/
theorem detKeypointsHarris_from_prior (ov : KeyPoint → KeyPoint → ℚ) (kps : List KeyPoint)
    (m : Mat) :
    detKeypointsHarris ov kps m = (candidates 100 3 m).foldl (nmsStep ov 0) kps ∧
      kps.length ≤ (detKeypointsHarris ov kps m).length := by
  have e : detKeypointsHarris ov kps m = (candidates 100 3 m).foldl (nmsStep ov 0) kps := by
    rw [detKeypointsHarris, nmsScan_eq_foldl]
  refine ⟨e, ?_⟩
  rw [e]
  exact foldl_nmsStep_length_ge ov 0 _ kps

/-- C7 (counterexample): the 1x1 map with response 100.5, above the threshold 100, gives
no keypoint, and the 1x1 map with response 150.5 gives a keypoint of response 150. -/
theorem fractional_response_truncated :
    ((100 : Int) : ℚ) < 201 / 2 ∧ detKeypointsHarris discOverlap [] (singleCell (201 / 2)) = [] ∧
      detKeypointsHarris discOverlap [] (singleCell (301 / 2)) = [newKeyPoint 3 0 0 150] ∧
      (newKeyPoint 3 0 0 150).response ≠ 301 / 2 := by
  refine ⟨by norm_num, ?_, ?_, by norm_num⟩
  · simp [detKeypointsHarris, nmsScan, rowStep, cellStep, List.range_succ, Mat.ofRows,
      singleCell, toInt_fractional.1]
  · simp [detKeypointsHarris, nmsScan, rowStep, cellStep, List.range_succ, Mat.ofRows,
      singleCell, toInt_fractional.2, nmsStep, nmsLoop]

/-- C7 (amended): on a 1x1 map whose cell holds `r`, the pass started from an empty
vector returns exactly one keypoint, at (0, 0), with response the integer truncation of
`r`, when that truncation is strictly greater than the threshold, and returns an empty
vector otherwise. -/
theorem nmsScan_single_cell (ov : KeyPoint → KeyPoint → ℚ) (mo : ℚ) (t a : Int) (m : Mat)
    (hr : m.rows = 1) (hc : m.cols = 1) :
    nmsScan ov mo t a [] m =
      if t < toInt (m.atFloat 0 0) then [newKeyPoint a 0 0 (toInt (m.atFloat 0 0))] else [] := by
  unfold nmsScan rowStep
  rw [hr, hc]
  by_cases h : t < toInt (m.atFloat 0 0)
  · simp [List.range_succ, cellStep, h, nmsStep, nmsLoop]
  · simp [List.range_succ, cellStep, h]

theorem nmsScan_single_cell_witness :
    (singleCell (301 / 2)).rows = 1 ∧ (singleCell (301 / 2)).cols = 1 ∧
      nmsScan discOverlap 0 100 3 [] (singleCell (301 / 2)) =
        if (100 : Int) < toInt ((singleCell (301 / 2)).atFloat 0 0) then
          [newKeyPoint 3 0 0 (toInt ((singleCell (301 / 2)).atFloat 0 0))]
        else [] :=
  ⟨rfl, rfl, nmsScan_single_cell discOverlap 0 100 3 (singleCell (301 / 2)) rfl rfl⟩

/-- C9: the result of the pass depends on the traversal order. The row-major pass and the
column-major traversal run the same step `nmsStep` over the same candidates, taken in
row-major and in column-major order; on `orderMap` with threshold 100, neighbourhood
size 6 and overlap threshold 0.0, both started from an empty vector, the row-major pass
returns the two keypoints at (4, 1) and (0, 1) and the column-major traversal returns the
single keypoint at (4, 1). So there are a response map and a threshold for which the
two orders yield a different number of keypoints. -/
theorem order_sensitive (ov : KeyPoint → KeyPoint → ℚ) (hov : DiscOverlap ov) :
    (∀ (mo : ℚ) (t a : Int) (kps : List KeyPoint) (m : Mat),
        nmsScan ov mo t a kps m = (candidates t a m).foldl (nmsStep ov mo) kps ∧
        nmsScanColMajor ov mo t a kps m
          = (candidatesColMajor t a m).foldl (nmsStep ov mo) kps ∧
        (candidatesColMajor t a m).Perm (candidates t a m)) ∧
      nmsScan ov 0 100 3 [] orderMap = [newKeyPoint 3 1 4 130, newKeyPoint 3 1 0 110] ∧
      nmsScanColMajor ov 0 100 3 [] orderMap = [newKeyPoint 3 1 4 130] ∧
      ∃ (m : Mat) (t : Int),
        (nmsScan ov 0 t 3 [] m).length = 2 ∧ (nmsScanColMajor ov 0 t 3 [] m).length = 1 ∧
        (nmsScanColMajor ov 0 t 3 [] m).length ≠ (nmsScan ov 0 t 3 [] m).length := by
  have h3 : (0 : Int) < 3 := by decide
  have e1 : nmsScan ov 0 100 3 [] orderMap
      = [newKeyPoint 3 1 4 130, newKeyPoint 3 1 0 110] := by
    simp [nmsScan, rowStep, cellStep, List.range_succ, Mat.ofRows, orderMap, toInt, nmsStep,
      nmsLoop, overlap_newKeyPoint hov h3]
    norm_num
  have e2 : nmsScanColMajor ov 0 100 3 [] orderMap = [newKeyPoint 3 1 4 130] := by
    simp [nmsScanColMajor, cellStep, List.range_succ, Mat.ofRows, orderMap, toInt, nmsStep,
      nmsLoop, overlap_newKeyPoint hov h3]
    norm_num
  refine ⟨?_, e1, e2, orderMap, 100, ?_, ?_, ?_⟩
  · intro mo t a kps m
    exact ⟨nmsScan_eq_foldl ov mo t a kps m, nmsScanColMajor_eq_foldl ov mo t a kps m,
      candidatesColMajor_perm t a m⟩
  · rw [e1]
    rfl
  · rw [e2]
    rfl
  · rw [e1, e2]
    decide

theorem order_sensitive_witness :
    DiscOverlap discOverlap ∧
      nmsScan discOverlap 0 100 3 [] orderMap
        = [newKeyPoint 3 1 4 130, newKeyPoint 3 1 0 110] ∧
      nmsScanColMajor discOverlap 0 100 3 [] orderMap = [newKeyPoint 3 1 4 130] :=
  ⟨discOverlap_spec, (order_sensitive discOverlap discOverlap_spec).2.1,
    (order_sensitive discOverlap discOverlap_spec).2.2.1⟩

/-- C10: when at least one cell's integer-truncated response exceeds the threshold, the
pass started from an empty vector returns a non-empty vector that contains a keypoint
whose response is the maximum of the truncated responses over all cells of the map:
it is the truncated response of some cell and no cell has a larger one. -/
theorem strongest_survives (ov : KeyPoint → KeyPoint → ℚ) (mo : ℚ) (t a : Int) (m : Mat)
    (h : ∃ j < m.rows, ∃ i < m.cols, t < toInt (m.atFloat j i)) :
    nmsScan ov mo t a [] m ≠ [] ∧
      ∃ k ∈ nmsScan ov mo t a [] m,
        (∃ j < m.rows, ∃ i < m.cols, k.response = (toInt (m.atFloat j i) : ℚ)) ∧
        ∀ j < m.rows, ∀ i < m.cols, (toInt (m.atFloat j i) : ℚ) ≤ k.response := by
  obtain ⟨j0, hj0, i0, hi0, hr0⟩ := h
  have hc0 : newKeyPoint a j0 i0 (toInt (m.atFloat j0 i0)) ∈ candidates t a m :=
    (mem_candidates t a m _).2 ⟨j0, i0, hj0, hi0, hr0, rfl⟩
  obtain ⟨cM, hcM, hmax⟩ := exists_max_response (candidates t a m) (List.ne_nil_of_mem hc0)
  obtain ⟨x, hx, hle⟩ :=
    foldl_nmsStep_dominates ov mo (candidates t a m) [] cM (Or.inr hcM)
  rw [← nmsScan_eq_foldl] at hx
  have hxc : x ∈ candidates t a m := by
    have := foldl_nmsStep_mem ov mo (candidates t a m) [] x (by rw [← nmsScan_eq_foldl]; exact hx)
    simpa using this
  have hxM : x.response = cM.response := le_antisymm (hmax x hxc) hle
  refine ⟨List.ne_nil_of_mem hx, x, hx, ?_, ?_⟩
  · obtain ⟨j, i, hj, hi, _, rfl⟩ := (mem_candidates t a m x).1 hxc
    exact ⟨j, hj, i, hi, rfl⟩
  · intro j hj i hi
    rw [hxM]
    by_cases hr : t < toInt (m.atFloat j i)
    · have := hmax _ ((mem_candidates t a m _).2 ⟨j, i, hj, hi, hr, rfl⟩)
      simpa using this
    · have h1 : toInt (m.atFloat j i) ≤ toInt (m.atFloat j0 i0) :=
        le_trans (not_lt.1 hr) (le_of_lt hr0)
      have h2 : ((toInt (m.atFloat j i) : Int) : ℚ) ≤ ((toInt (m.atFloat j0 i0) : Int) : ℚ) := by
        exact_mod_cast h1
      have h3 := hmax _ hc0
      simp only [newKeyPoint_response] at h3
      exact le_trans h2 h3

theorem strongest_survives_witness :
    (∃ j < scenarioMap.rows, ∃ i < scenarioMap.cols,
        (100 : Int) < toInt (scenarioMap.atFloat j i)) ∧
      (nmsScan discOverlap 0 100 3 [] scenarioMap ≠ [] ∧
        ∃ k ∈ nmsScan discOverlap 0 100 3 [] scenarioMap,
          (∃ j < scenarioMap.rows, ∃ i < scenarioMap.cols,
            k.response = (toInt (scenarioMap.atFloat j i) : ℚ)) ∧
          ∀ j < scenarioMap.rows, ∀ i < scenarioMap.cols,
            (toInt (scenarioMap.atFloat j i) : ℚ) ≤ k.response) := by
  have h : ∃ j < scenarioMap.rows, ∃ i < scenarioMap.cols,
      (100 : Int) < toInt (scenarioMap.atFloat j i) :=
    ⟨2, by decide, 2, by decide, by simp [scenarioMap, Mat.ofRows, toInt]⟩
  exact ⟨h, strongest_survives discOverlap 0 100 3 scenarioMap h⟩

/-- C11: every keypoint of the vector returned by the pass started from an empty vector
comes from a distinct above-threshold cell. Each one has the position (x = column,
y = row) of a cell whose integer-truncated response exceeds the threshold, carries that
truncated response and the size 6; no two of them share a position; and they are at
most as many as the cells whose truncated response exceeds the threshold. -/
theorem output_from_distinct_cells (ov : KeyPoint → KeyPoint → ℚ) (mo : ℚ) (t : Int) (m : Mat) :
    (∀ k ∈ nmsScan ov mo t 3 [] m, ∃ j < m.rows, ∃ i < m.cols,
        t < toInt (m.atFloat j i) ∧ k.pt = ((i : ℚ), (j : ℚ)) ∧
        k.response = (toInt (m.atFloat j i) : ℚ) ∧ k.size = 6) ∧
      ((nmsScan ov mo t 3 [] m).map KeyPoint.pt).Nodup ∧
      (nmsScan ov mo t 3 [] m).length
        ≤ ((cells m).filter fun c => decide (t < toInt (m.atFloat c.1 c.2))).length := by
  refine ⟨?_, ?_, ?_⟩
  · intro k hk
    rw [nmsScan_eq_foldl] at hk
    have hc : k ∈ candidates t 3 m := by
      simpa using foldl_nmsStep_mem ov mo (candidates t 3 m) [] k hk
    obtain ⟨j, i, hj, hi, hr, rfl⟩ := (mem_candidates t 3 m k).1 hc
    refine ⟨j, hj, i, hi, hr, rfl, rfl, ?_⟩
    simp only [newKeyPoint]
    norm_num
  · rw [nmsScan_eq_foldl]
    exact foldl_nmsStep_pt_nodup ov mo (candidates t 3 m) []
      (by simpa using candidates_pt_nodup t 3 m)
  · rw [nmsScan_eq_foldl]
    have h := foldl_nmsStep_length_le ov mo (candidates t 3 m) []
    rw [candidates_eq_map_filter] at h ⊢
    simpa using h

end Harris
